import Mathlib

/-!
Verification of the `Uint` fixed-width unsigned integer library.

The limb store (`lib.rs`) is embedded directly: `nlimbs`, `mask`, the
`Uint` structure, its constants `ZERO`, `MIN`, `MAX`, and the
constructors `from_limbs` / `from_limbs_slice`.  Fallible constructors
(which abort in the original) are modelled as `Option`-returning
functions.  Machine `u64` limbs are modelled as natural numbers together
with the bound `< 2 ^ 64`.

The arithmetic kernels (addition, division, exponentiation, shifts) are
not part of the sources at hand; they are modelled from the
specification text, each marked `Modelled from the spec:` in its doc
comment.
-/

set_option maxHeartbeats 1000000

namespace Ruint

/-- Number of `u64` limbs required to represent the given number of bits
(`nlimbs` in lib.rs). -/
def nlimbs (bits : Nat) : Nat := (bits + 63) / 64

/-- Mask to apply to the highest limb to get the correct number of bits
(`mask` in lib.rs).  `u64::MAX` is `2 ^ 64 - 1` and `(1 << b) - 1` is
`2 ^ b - 1`. -/
def mask (bits : Nat) : Nat :=
  if bits = 0 then 0
  else if bits % 64 = 0 then 2 ^ 64 - 1
  else 2 ^ (bits % 64) - 1

/-- The ring of numbers modulo `2 ^ BITS`: a fixed array of `LIMBS`
64-bit limbs, least significant first (struct `Uint` in lib.rs). -/
structure Uint (BITS LIMBS : Nat) where
  limbs : List Nat
deriving DecidableEq

namespace Uint

/-- The value zero, all limbs zero (`Uint::ZERO`). -/
def ZERO (BITS LIMBS : Nat) : Uint BITS LIMBS := ⟨List.replicate LIMBS 0⟩

/-- The smallest value, synonym for `ZERO` (`Uint::MIN`). -/
def MIN (BITS LIMBS : Nat) : Uint BITS LIMBS := ZERO BITS LIMBS

/-- The largest value (`Uint::MAX`): all limbs filled with `u64::MAX`,
then, when `BITS > 0`, the top limb is and-ed with the mask. -/
def MAX (BITS LIMBS : Nat) : Uint BITS LIMBS :=
  let l := List.replicate LIMBS (2 ^ 64 - 1)
  if 0 < BITS then ⟨l.set (LIMBS - 1) ((2 ^ 64 - 1) &&& mask BITS)⟩ else ⟨l⟩

/-- View the array of limbs (`Uint::as_limbs`). -/
def as_limbs {BITS LIMBS : Nat} (v : Uint BITS LIMBS) : List Nat := v.limbs

/-- Convert to an array of limbs (`Uint::into_limbs`). -/
def into_limbs {BITS LIMBS : Nat} (v : Uint BITS LIMBS) : List Nat := v.limbs

/-- Construct from an array of limbs (`Uint::from_limbs`).  The source
aborts when `LIMBS` differs from `nlimbs BITS` (`assert_valid`) or when,
for `BITS > 0`, the top limb exceeds the mask; both aborts are modelled
as `none`. -/
def from_limbs (BITS LIMBS : Nat) (limbs : List Nat) : Option (Uint BITS LIMBS) :=
  if LIMBS ≠ nlimbs BITS then none
  else if 0 < BITS ∧ mask BITS < limbs.getD (nlimbs BITS - 1) 0 then none
  else some ⟨limbs⟩

/-- Construct from a slice (`Uint::from_limbs_slice`).  `copy_from_slice`
aborts when the slice length differs from `LIMBS`; afterwards the copy
equals the slice and is passed to `from_limbs`. -/
def from_limbs_slice (BITS LIMBS : Nat) (slice : List Nat) : Option (Uint BITS LIMBS) :=
  if slice.length ≠ LIMBS then none else from_limbs BITS LIMBS slice

/-- The `Default` instance of `Uint` returns `ZERO` (impl Default in
lib.rs). -/
def default (BITS LIMBS : Nat) : Uint BITS LIMBS := ZERO BITS LIMBS

end Uint

/-- Numeric value denoted by a least-significant-first list of 64-bit
limbs. -/
def limbsVal : List Nat → Nat
  | [] => 0
  | x :: xs => x + 2 ^ 64 * limbsVal xs

/-- Numeric value of a `Uint`. -/
def Uint.toNat {BITS LIMBS : Nat} (v : Uint BITS LIMBS) : Nat := limbsVal v.limbs

/-- Canonical form of a limb list for a given width: right length, every
limb fits in 64 bits, and for positive widths the top limb is at most
the mask. -/
def canonicalLimbs (BITS : Nat) (ls : List Nat) : Prop :=
  ls.length = nlimbs BITS ∧ (∀ x ∈ ls, x < 2 ^ 64) ∧
    (0 < BITS → ls.getD (nlimbs BITS - 1) 0 ≤ mask BITS)

/-- The top-limb mask predicate of the canonical-form invariant: every
bit of the most significant limb at position at least `BITS % 64` is
clear. -/
def topCanon (BITS LIMBS : Nat) (v : Uint BITS LIMBS) : Prop :=
  ∀ i, BITS % 64 ≤ i → ((Uint.as_limbs v).getD (LIMBS - 1) 0).testBit i = false

/-- Multiplying by a predecessor: `a * (b - 1) + a = a * b` for `b ≥ 1`. -/
theorem mul_pred_add (a b : Nat) (hb : 1 ≤ b) : a * (b - 1) + a = a * b := by
  have h : b - 1 + 1 = b := by omega
  calc a * (b - 1) + a = a * (b - 1 + 1) := by rw [Nat.mul_succ]
    _ = a * b := by rw [h]

/-- `getD` at the position of the appended last element. -/
theorem getD_append_len (ys : List Nat) (t i : Nat) (hi : i = ys.length) :
    (ys ++ [t]).getD i 0 = t := by
  subst hi
  simp [List.getD_eq_getElem?_getD, List.getElem?_concat_length]

/-- `getD` on a replicated zero list is zero. -/
theorem getD_replicate_zero (n i : Nat) : (List.replicate n (0 : Nat)).getD i 0 = 0 := by
  rw [List.getD_eq_getElem?_getD, List.getElem?_replicate]
  split <;> rfl

/-- Setting the last position of a replicated list appends the new
element to a shorter replicated list. -/
theorem replicate_set_last (n : Nat) (a y : Nat) :
    (List.replicate (n + 1) a).set n y = List.replicate n a ++ [y] := by
  induction n with
  | zero => rfl
  | succ m ih =>
    rw [List.replicate_succ (n := m + 1)]
    rw [List.replicate_succ (n := m)]
    simpa [List.set] using ih

/-- Value of a list with one element appended. -/
theorem limbsVal_append_singleton (ys : List Nat) (y : Nat) :
    limbsVal (ys ++ [y]) = limbsVal ys + 2 ^ (64 * ys.length) * y := by
  induction ys with
  | nil => simp [limbsVal]
  | cons x xs ih =>
    have hpow : (2 : Nat) ^ (64 * (xs.length + 1)) = 2 ^ 64 * 2 ^ (64 * xs.length) := by
      rw [← pow_add]; congr 1; ring
    have hc : (x :: xs) ++ [y] = x :: (xs ++ [y]) := rfl
    rw [hc]
    show x + 2 ^ 64 * limbsVal (xs ++ [y]) = _
    rw [ih, List.length_cons, hpow]
    show _ = x + 2 ^ 64 * limbsVal xs + 2 ^ 64 * 2 ^ (64 * xs.length) * y
    ring

/-- Value of a list of all-ones limbs. -/
theorem limbsVal_replicate_max (L : Nat) :
    limbsVal (List.replicate L (2 ^ 64 - 1)) = 2 ^ (64 * L) - 1 := by
  induction L with
  | zero => simp [limbsVal]
  | succ n ih =>
    have hpow : (2 : Nat) ^ (64 * (n + 1)) = 2 ^ 64 * 2 ^ (64 * n) := by
      rw [← pow_add]; congr 1; ring
    rw [List.replicate_succ]
    simp only [limbsVal, ih, hpow]
    have hk : 1 ≤ 2 ^ (64 * n) := Nat.one_le_two_pow
    have h2 : (2 : Nat) ^ 64 * (2 ^ (64 * n) - 1) + 2 ^ 64 = 2 ^ 64 * 2 ^ (64 * n) :=
      mul_pred_add _ _ hk
    omega

/-- Reduction of an all-ones value modulo a smaller power of two. -/
theorem two_pow_sub_one_mod (a b : Nat) (hab : a ≤ b) :
    (2 ^ b - 1) % 2 ^ a = 2 ^ a - 1 := by
  have hsplit : (2 : Nat) ^ b = 2 ^ a * 2 ^ (b - a) := by
    rw [← pow_add]; congr 1; omega
  have hk : 1 ≤ 2 ^ (b - a) := Nat.one_le_two_pow
  have hA : 1 ≤ 2 ^ a := Nat.one_le_two_pow
  have h2 : (2 : Nat) ^ a * (2 ^ (b - a) - 1) + 2 ^ a = 2 ^ a * 2 ^ (b - a) :=
    mul_pred_add _ _ hk
  have hrw : (2 : Nat) ^ b - 1 = 2 ^ a - 1 + 2 ^ a * (2 ^ (b - a) - 1) := by omega
  rw [hrw, Nat.add_mul_mod_self_left, Nat.mod_eq_of_lt (by omega)]

/-- The top limb stored in `MAX` equals the mask for positive widths. -/
theorem max_top_limb (BITS : Nat) (h0 : 0 < BITS) :
    (2 ^ 64 - 1) &&& mask BITS = mask BITS := by
  have hm : ∃ r, r ≤ 64 ∧ 0 < r ∧ mask BITS = 2 ^ r - 1 := by
    unfold mask
    rw [if_neg (by omega)]
    by_cases hr : BITS % 64 = 0
    · exact ⟨64, by simp [hr]⟩
    · exact ⟨BITS % 64, by omega, by omega, by rw [if_neg hr]⟩
  obtain ⟨r, hr64, hrpos, hmr⟩ := hm
  rw [hmr, Nat.and_pow_two_sub_one_eq_mod, two_pow_sub_one_mod r 64 hr64]

/-- A limb at most the mask has no set bit at or above `BITS % 64`, when
`BITS % 64 ≠ 0`. -/
theorem le_mask_testBit (BITS x : Nat) (hr : BITS % 64 ≠ 0) (hx : x ≤ mask BITS) :
    ∀ i, BITS % 64 ≤ i → x.testBit i = false := by
  intro i hi
  have h0 : BITS ≠ 0 := by omega
  have hmask : mask BITS = 2 ^ (BITS % 64) - 1 := by
    unfold mask
    rw [if_neg h0, if_neg hr]
  have hlt : x < 2 ^ (BITS % 64) := by
    have := Nat.one_le_two_pow (n := BITS % 64)
    omega
  exact Nat.testBit_lt_two_pow (Nat.lt_of_lt_of_le hlt (Nat.pow_le_pow_right (by omega) hi))

/-- C1: every value produced by `ZERO`, `MIN`, `MAX`, `from_limbs` or
`from_limbs_slice` satisfies the canonical-form mask predicate on its
most significant limb when `BITS > 0` and `BITS % 64 ≠ 0`. -/
theorem canonical_invariant (BITS LIMBS : Nat) (h0 : 0 < BITS) (hr : BITS % 64 ≠ 0)
    (hL : LIMBS = nlimbs BITS) :
    topCanon BITS LIMBS (Uint.ZERO BITS LIMBS)
    ∧ topCanon BITS LIMBS (Uint.MIN BITS LIMBS)
    ∧ topCanon BITS LIMBS (Uint.MAX BITS LIMBS)
    ∧ (∀ (ls : List Nat) (v : Uint BITS LIMBS),
        Uint.from_limbs BITS LIMBS ls = some v → topCanon BITS LIMBS v)
    ∧ (∀ (s : List Nat) (v : Uint BITS LIMBS),
        Uint.from_limbs_slice BITS LIMBS s = some v → topCanon BITS LIMBS v) := by
  have hL1 : 1 ≤ nlimbs BITS := by
    unfold nlimbs; omega
  have hzero : topCanon BITS LIMBS (Uint.ZERO BITS LIMBS) := by
    intro i hi
    show ((Uint.as_limbs (Uint.ZERO BITS LIMBS)).getD (LIMBS - 1) 0).testBit i = false
    unfold Uint.as_limbs Uint.ZERO
    rw [getD_replicate_zero]
    exact Nat.zero_testBit i
  have hfrom : ∀ (ls : List Nat) (v : Uint BITS LIMBS),
      Uint.from_limbs BITS LIMBS ls = some v → topCanon BITS LIMBS v := by
    intro ls v hv
    unfold Uint.from_limbs at hv
    split at hv
    · exact absurd hv (by simp)
    · split at hv
      · exact absurd hv (by simp)
      · rename_i hc1 hc2
        push_neg at hc2
        have htop : ls.getD (nlimbs BITS - 1) 0 ≤ mask BITS := hc2 h0
        cases v with
        | mk l =>
          simp only [Option.some.injEq, Uint.mk.injEq] at hv
          intro i hi
          rw [Uint.as_limbs, ← hv, hL]
          exact le_mask_testBit BITS _ hr htop i hi
  refine ⟨hzero, hzero, ?_, hfrom, ?_⟩
  · intro i hi
    have htop : (Uint.as_limbs (Uint.MAX BITS LIMBS)).getD (LIMBS - 1) 0 ≤ mask BITS := by
      obtain ⟨K, hK⟩ : ∃ K, LIMBS = K + 1 := ⟨LIMBS - 1, by omega⟩
      unfold Uint.MAX Uint.as_limbs
      rw [if_pos h0, hK]
      simp only [Nat.add_sub_cancel]
      rw [replicate_set_last K _ _]
      show (List.replicate K (2 ^ 64 - 1) ++ [(2 ^ 64 - 1) &&& mask BITS]).getD K 0 ≤ mask BITS
      rw [getD_append_len _ _ K (by simp)]
      exact Nat.and_le_right
    exact le_mask_testBit BITS _ hr htop i hi
  · intro s v hv
    unfold Uint.from_limbs_slice at hv
    split at hv
    · exact absurd hv (by simp)
    · exact hfrom s v hv

/-- Witness for `canonical_invariant`: at width 7 with one limb, bit 7
of the top limb of `MAX` is clear. -/
theorem canonical_invariant_witness :
    ((Uint.as_limbs (Uint.MAX 7 1)).getD 0 0).testBit 7 = false :=
  (canonical_invariant 7 1 (by decide) (by decide) rfl).2.2.1 7 (by decide)

/-- C2: `MAX` denotes `2 ^ BITS - 1` for every width, and at width 7 it
denotes 127. -/
theorem max_value :
    (∀ BITS, limbsVal (Uint.MAX BITS (nlimbs BITS)).limbs = 2 ^ BITS - 1)
    ∧ limbsVal (Uint.MAX 7 1).limbs = 127 := by
  constructor
  · intro BITS
    by_cases h0 : 0 < BITS
    · have hL1 : 1 ≤ nlimbs BITS := by unfold nlimbs; omega
      rcases Nat.exists_eq_add_of_le hL1 with ⟨K, hK⟩
      have hK' : nlimbs BITS = K + 1 := by omega
      unfold Uint.MAX
      rw [if_pos h0]
      simp only
      rw [hK', show K + 1 - 1 = K by omega, replicate_set_last K _ _]
      rw [max_top_limb BITS h0]
      rw [limbsVal_append_singleton, limbsVal_replicate_max, List.length_replicate]
      have hm : ∃ r, 0 < r ∧ r ≤ 64 ∧ mask BITS = 2 ^ r - 1 ∧ 64 * K + r = BITS := by
        unfold mask
        rw [if_neg (by omega)]
        by_cases hr : BITS % 64 = 0
        · refine ⟨64, by omega, by omega, by simp [hr], ?_⟩
          have : nlimbs BITS = BITS / 64 := by unfold nlimbs; omega
          omega
        · refine ⟨BITS % 64, by omega, by omega, by rw [if_neg hr], ?_⟩
          have : nlimbs BITS = BITS / 64 + 1 := by unfold nlimbs; omega
          omega
      obtain ⟨r, hrpos, hr64, hmr, hbits⟩ := hm
      rw [hmr]
      have hAB : (2 : Nat) ^ (64 * K) * 2 ^ r = 2 ^ BITS := by
        rw [← pow_add, hbits]
      have hA : 1 ≤ (2 : Nat) ^ (64 * K) := Nat.one_le_two_pow
      have hB : 1 ≤ (2 : Nat) ^ r := Nat.one_le_two_pow
      have h2 : (2 : Nat) ^ (64 * K) * (2 ^ r - 1) + 2 ^ (64 * K) =
          2 ^ (64 * K) * 2 ^ r := mul_pred_add _ _ hB
      omega
    · have hB : BITS = 0 := by omega
      subst hB
      simp [Uint.MAX, nlimbs, limbsVal]
  · decide

/-- C4: for every width, `ZERO` has all limbs zero and `MIN = ZERO`;
for `BITS = 0` the only canonical value is the all-zero value, and
`MAX = ZERO` at that width. -/
theorem zero_min_props (BITS LIMBS : Nat) :
    (∀ x ∈ (Uint.ZERO BITS LIMBS).limbs, x = 0)
    ∧ Uint.MIN BITS LIMBS = Uint.ZERO BITS LIMBS
    ∧ (∀ v : Uint 0 (nlimbs 0), canonicalLimbs 0 v.limbs → v = Uint.ZERO 0 (nlimbs 0))
    ∧ Uint.MAX 0 (nlimbs 0) = Uint.ZERO 0 (nlimbs 0) := by
  refine ⟨?_, rfl, ?_, ?_⟩
  · intro x hx
    exact List.eq_of_mem_replicate hx
  · intro v hv
    obtain ⟨hlen, -, -⟩ := hv
    cases v with
    | mk ls =>
      simp only [Uint.ZERO]
      congr 1
      have : ls.length = 0 := hlen
      simpa [List.length_eq_zero] using this
  · simp [Uint.MAX, Uint.ZERO, nlimbs]

/-- C10: the `Default` value equals `ZERO` for every instantiation, so
default construction yields the all-limbs-zero value. -/
theorem default_is_zero (BITS LIMBS : Nat) :
    Uint.default BITS LIMBS = Uint.ZERO BITS LIMBS
    ∧ (Uint.default BITS LIMBS).limbs = List.replicate LIMBS 0 :=
  ⟨rfl, rfl⟩

/-- C3: `from_limbs` fails exactly when the limb count parameter is
wrong or, for positive widths, the top limb exceeds the mask; otherwise
it returns the value whose limb array is the input.  `from_limbs_slice`
adds a length check.  At width 7 the limb value 128 is rejected. -/
theorem from_limbs_spec (BITS LIMBS : Nat) (ls : List Nat) (hlen : ls.length = LIMBS) :
    (Uint.from_limbs BITS LIMBS ls = none ↔
      LIMBS ≠ nlimbs BITS ∨ (0 < BITS ∧ mask BITS < ls.getD (nlimbs BITS - 1) 0))
    ∧ (∀ v : Uint BITS LIMBS, Uint.from_limbs BITS LIMBS ls = some v → v.limbs = ls)
    ∧ (∀ s : List Nat,
        Uint.from_limbs_slice BITS LIMBS s = none ↔
          s.length ≠ LIMBS ∨ LIMBS ≠ nlimbs BITS ∨
            (0 < BITS ∧ mask BITS < s.getD (nlimbs BITS - 1) 0))
    ∧ Uint.from_limbs 7 1 [128] = none := by
  refine ⟨?_, ?_, ?_, by decide⟩
  · unfold Uint.from_limbs
    split
    · simp_all
    · split <;> simp_all
  · intro v hv
    unfold Uint.from_limbs at hv
    split at hv
    · exact absurd hv (by simp)
    · split at hv
      · exact absurd hv (by simp)
      · cases v; simp_all
  · intro s
    unfold Uint.from_limbs_slice Uint.from_limbs
    split
    · simp_all
    · split
      · simp_all
      · split <;> simp_all

/-- Witness for `from_limbs_spec`: length hypothesis discharged at the
concrete input `[127]` for width 7, and the rejection of `[128]`
extracted. -/
theorem from_limbs_spec_witness :
    ([127] : List Nat).length = 1 ∧ Uint.from_limbs 7 1 [128] = none :=
  ⟨rfl, (from_limbs_spec 7 1 [127] rfl).2.2.2⟩

/-- C9: round-trip of the limb interface.  A canonical value of a
correctly instantiated type survives `from_limbs ∘ into_limbs`
unchanged, and `as_limbs` of any accepted limb list is exactly that
list. -/
theorem limbs_roundtrip (BITS LIMBS : Nat) (hL : LIMBS = nlimbs BITS) :
    (∀ v : Uint BITS LIMBS, canonicalLimbs BITS v.limbs →
      Uint.from_limbs BITS LIMBS (Uint.into_limbs v) = some v)
    ∧ (∀ (ls : List Nat) (u : Uint BITS LIMBS),
        Uint.from_limbs BITS LIMBS ls = some u → Uint.as_limbs u = ls) := by
  constructor
  · intro v hv
    obtain ⟨-, -, htop⟩ := hv
    have h2 : ¬(0 < BITS ∧ mask BITS < v.limbs.getD (nlimbs BITS - 1) 0) := by
      rintro ⟨hpos, hlt⟩
      exact absurd (htop hpos) (by omega)
    unfold Uint.from_limbs Uint.into_limbs
    rw [if_neg (by simp [hL]), if_neg h2]
  · intro ls u hu
    unfold Uint.from_limbs at hu
    split at hu
    · exact absurd hu (by simp)
    · split at hu
      · exact absurd hu (by simp)
      · cases u
        simp only [Option.some.injEq, Uint.mk.injEq] at hu
        simp [Uint.as_limbs, hu]

/-- Witness for `limbs_roundtrip`: round-trip of the canonical value
`[5]` at width 7. -/
theorem limbs_roundtrip_witness :
    Uint.from_limbs 7 1 (Uint.into_limbs (⟨[5]⟩ : Uint 7 1)) = some ⟨[5]⟩ :=
  (limbs_roundtrip 7 1 rfl).1 ⟨[5]⟩ ⟨rfl, by decide, by decide⟩

/-- Modelled from the spec: the shift kernel (`bits.rs`) is not among
the sources.  Per §4.8 an overflow-detecting left shift returns the
wrapped ring result together with a flag set exactly when the true
shifted value leaves the ring. -/
def overflowing_shl (BITS v s : Nat) : Nat × Bool :=
  ((v * 2 ^ s) % 2 ^ BITS, decide (2 ^ BITS ≤ v * 2 ^ s))

/-- Modelled from the spec: `checked_shl` returns no value exactly when
the overflow-detecting shift reports overflow. -/
def checked_shl (BITS v s : Nat) : Option Nat :=
  if (overflowing_shl BITS v s).2 then none else some (overflowing_shl BITS v s).1

/-- C7: the overflow-detecting left shifts signal overflow exactly when
some set bit of the value is shifted out of the range `[0, BITS)`,
whatever the shift amount; at width 8 the value 200 shifted by 1
overflows. -/
theorem shl_overflow_spec (BITS v s : Nat) :
    ((overflowing_shl BITS v s).2 = true ↔ ∃ i, v.testBit i = true ∧ BITS ≤ i + s)
    ∧ (checked_shl BITS v s = none ↔ ∃ i, v.testBit i = true ∧ BITS ≤ i + s)
    ∧ checked_shl 8 200 1 = none := by
  have key : 2 ^ BITS ≤ v * 2 ^ s ↔ ∃ i, v.testBit i = true ∧ BITS ≤ i + s := by
    constructor
    · intro h
      by_contra hno
      push_neg at hno
      have hlt : v * 2 ^ s < 2 ^ BITS := by
        by_cases hs : s ≤ BITS
        · have hv : v < 2 ^ (BITS - s) := by
            apply Nat.lt_pow_two_of_testBit
            intro i hi
            by_contra hbit
            have hb : v.testBit i = true := by
              cases hh : v.testBit i
              · exact absurd hh hbit
              · rfl
            have := hno i hb
            omega
          calc v * 2 ^ s < 2 ^ (BITS - s) * 2 ^ s :=
                (Nat.mul_lt_mul_right (Nat.pos_pow_of_pos s (by omega))).mpr hv
            _ = 2 ^ BITS := by
                rw [← pow_add]
                congr 1
                omega
        · have hv : v = 0 := by
            by_contra hv0
            obtain ⟨i, hib⟩ := Nat.ne_zero_implies_bit_true hv0
            have := hno i hib
            omega
          subst hv
          rw [Nat.zero_mul]
          exact Nat.pos_pow_of_pos BITS (by norm_num)
      omega
    · rintro ⟨i, hib, his⟩
      have h1 : 2 ^ i ≤ v := Nat.testBit_implies_ge hib
      calc (2 : Nat) ^ BITS ≤ 2 ^ (i + s) := Nat.pow_le_pow_right (by omega) his
        _ = 2 ^ i * 2 ^ s := pow_add 2 i s
        _ ≤ v * 2 ^ s := Nat.mul_le_mul_right _ h1
  refine ⟨?_, ?_, by decide⟩
  · simpa [overflowing_shl] using key
  · unfold checked_shl
    rcases hb : (overflowing_shl BITS v s).2 with hf | ht
    · simp only [Bool.false_eq_true, if_false]
      simp only [overflowing_shl, decide_eq_false_iff_not] at hb
      constructor
      · intro h; exact absurd h (by simp)
      · intro h
        exact absurd ((key).2 h) hb
    · simp only [if_true]
      simp only [overflowing_shl, decide_eq_true_eq] at hb
      simp only [true_iff]
      exact key.1 hb

/-- Modelled from the spec: the exponentiation kernel (`pow.rs`) is not
among the sources.  Per §4.5 it is binary square-and-multiply in the
ring, squaring the base and halving the exponent, with the wrapping
multiply at each step. -/
def pow_ring (BITS a e : Nat) : Nat :=
  if h : e = 0 then 1 % 2 ^ BITS
  else
    let r := pow_ring BITS (a * a % 2 ^ BITS) (e / 2)
    if e % 2 = 1 then a % 2 ^ BITS * r % 2 ^ BITS else r
termination_by e
decreasing_by exact Nat.div_lt_self (Nat.pos_of_ne_zero h) (by norm_num)

/-- Modelled from the spec: the multiplicative identity `ONE` as a ring
value. -/
def ONE_val (BITS : Nat) : Nat := 1 % 2 ^ BITS

/-- The square-and-multiply model computes the exact ring power. -/
theorem pow_ring_correct (BITS e a : Nat) : pow_ring BITS a e = a ^ e % 2 ^ BITS := by
  induction e using Nat.strong_induction_on generalizing a with
  | _ e ih =>
    rw [pow_ring]
    by_cases h : e = 0
    · subst h
      simp
    · rw [dif_neg h]
      have hlt : e / 2 < e := Nat.div_lt_self (Nat.pos_of_ne_zero h) (by norm_num)
      have hr : pow_ring BITS (a * a % 2 ^ BITS) (e / 2) =
          (a * a) ^ (e / 2) % 2 ^ BITS := by
        rw [ih (e / 2) hlt, ← Nat.pow_mod]
      by_cases hodd : e % 2 = 1
      · rw [if_pos hodd, hr, ← Nat.mul_mod]
        congr 1
        have h2 : a * a = a ^ 2 := (sq a).symm
        rw [h2, ← pow_mul]
        have he : e = 2 * (e / 2) + 1 := by omega
        conv_rhs => rw [he]
        rw [pow_succ]
        ring
      · rw [if_neg hodd, hr]
        have he : e = 2 * (e / 2) := by omega
        conv_rhs => rw [he]
        rw [pow_mul]
        congr 1
        rw [sq]

/-- C8: raising any base of any width to the zero exponent yields the
multiplicative identity, including the base `ZERO`. -/
theorem pow_zero_spec (BITS a : Nat) :
    pow_ring BITS a 0 = ONE_val BITS ∧ pow_ring BITS 0 0 = ONE_val BITS := by
  constructor <;> rw [pow_ring] <;> rfl

/-- Base-`2 ^ 64` digits of a natural number, `L` limbs long. -/
def natToLimbs : Nat → Nat → List Nat
  | 0, _ => []
  | L + 1, n => n % 2 ^ 64 :: natToLimbs L (n / 2 ^ 64)

/-- The digit decomposition denotes the number modulo `2 ^ (64 L)`. -/
theorem limbsVal_natToLimbs (L : Nat) : ∀ n, limbsVal (natToLimbs L n) = n % 2 ^ (64 * L) := by
  induction L with
  | zero =>
    intro n
    simp [natToLimbs, limbsVal, Nat.mod_one]
  | succ m ih =>
    intro n
    show n % 2 ^ 64 + 2 ^ 64 * limbsVal (natToLimbs m (n / 2 ^ 64)) = n % 2 ^ (64 * (m + 1))
    rw [ih (n / 2 ^ 64)]
    have hpow : (2 : Nat) ^ (64 * (m + 1)) = 2 ^ 64 * 2 ^ (64 * m) := by
      rw [← pow_add]
      congr 1
      ring
    rw [hpow, Nat.mod_mul]

/-- A list of 64-bit limbs denotes a value below `2 ^ (64 L)`. -/
theorem limbsVal_lt (ls : List Nat) (h : ∀ x ∈ ls, x < 2 ^ 64) :
    limbsVal ls < 2 ^ (64 * ls.length) := by
  induction ls with
  | nil => simp [limbsVal]
  | cons x xs ih =>
    have hx : x < 2 ^ 64 := h x (by simp)
    have hxs : limbsVal xs < 2 ^ (64 * xs.length) := ih fun y hy => h y (by simp [hy])
    show x + 2 ^ 64 * limbsVal xs < 2 ^ (64 * (xs.length + 1))
    have hpow : (2 : Nat) ^ (64 * (xs.length + 1)) = 2 ^ 64 * 2 ^ (64 * xs.length) := by
      rw [← pow_add]
      congr 1
      ring
    rw [hpow]
    have h1 : 2 ^ 64 * limbsVal xs + 2 ^ 64 ≤ 2 ^ 64 * 2 ^ (64 * xs.length) := by
      have := Nat.mul_le_mul_left (2 ^ 64) (Nat.succ_le_of_lt hxs)
      simpa [Nat.mul_succ] using this
    omega

/-- Modelled from the spec: the division kernel (`div.rs`) is not among
the sources.  Per §4.4 and §7, division with the ring zero divisor in
the infallible call shape is a fatal `DivisionByZero`, modelled as
`none`; otherwise the result is the Euclidean quotient and remainder. -/
def div_rem {BITS LIMBS : Nat} (a b : Uint BITS LIMBS) :
    Option (Uint BITS LIMBS × Uint BITS LIMBS) :=
  if b.toNat = 0 then none
  else some (⟨natToLimbs LIMBS (a.toNat / b.toNat)⟩, ⟨natToLimbs LIMBS (a.toNat % b.toNat)⟩)

/-- C5: for a nonzero divisor the division kernel returns a quotient
and remainder satisfying the exact Euclidean identity, and the zero
divisor is a fatal error. -/
theorem div_rem_spec (BITS LIMBS : Nat) (a b : Uint BITS LIMBS)
    (haL : a.limbs.length = LIMBS) (haB : ∀ x ∈ a.limbs, x < 2 ^ 64) :
    (b.toNat ≠ 0 → ∃ q r : Uint BITS LIMBS, div_rem a b = some (q, r)
      ∧ a.toNat = q.toNat * b.toNat + r.toNat ∧ r.toNat < b.toNat)
    ∧ (b.toNat = 0 → div_rem a b = none) := by
  constructor
  · intro hb
    have halt : a.toNat < 2 ^ (64 * LIMBS) := by
      have := limbsVal_lt a.limbs haB
      rw [haL] at this
      exact this
    refine ⟨⟨natToLimbs LIMBS (a.toNat / b.toNat)⟩,
      ⟨natToLimbs LIMBS (a.toNat % b.toNat)⟩, ?_, ?_, ?_⟩
    · unfold div_rem
      rw [if_neg hb]
    · show a.toNat = limbsVal (natToLimbs LIMBS (a.toNat / b.toNat)) * b.toNat
        + limbsVal (natToLimbs LIMBS (a.toNat % b.toNat))
      rw [limbsVal_natToLimbs, limbsVal_natToLimbs]
      have hq : a.toNat / b.toNat < 2 ^ (64 * LIMBS) :=
        Nat.lt_of_le_of_lt (Nat.div_le_self _ _) halt
      have hrm : a.toNat % b.toNat < 2 ^ (64 * LIMBS) :=
        Nat.lt_of_le_of_lt (Nat.mod_le _ _) halt
      rw [Nat.mod_eq_of_lt hq, Nat.mod_eq_of_lt hrm]
      rw [Nat.mul_comm]
      exact (Nat.div_add_mod a.toNat b.toNat).symm
    · show limbsVal (natToLimbs LIMBS (a.toNat % b.toNat)) < b.toNat
      rw [limbsVal_natToLimbs]
      have hrm : a.toNat % b.toNat < 2 ^ (64 * LIMBS) :=
        Nat.lt_of_le_of_lt (Nat.mod_le _ _)
          (by
            have := limbsVal_lt a.limbs haB
            rw [haL] at this
            exact this)
      rw [Nat.mod_eq_of_lt hrm]
      exact Nat.mod_lt _ (Nat.pos_of_ne_zero hb)
  · intro hb
    unfold div_rem
    rw [if_pos hb]

/-- Witness for `div_rem_spec`: the two-limb value `3 · 2^64 + 5`
divided by 2 at width 128.  Hypotheses are discharged at this concrete
input. -/
theorem div_rem_spec_witness :
    ∃ q r : Uint 128 2, div_rem (⟨[5, 3]⟩ : Uint 128 2) ⟨[2, 0]⟩ = some (q, r)
      ∧ (⟨[5, 3]⟩ : Uint 128 2).toNat = q.toNat * (⟨[2, 0]⟩ : Uint 128 2).toNat + r.toNat
      ∧ r.toNat < (⟨[2, 0]⟩ : Uint 128 2).toNat :=
  (div_rem_spec 128 2 ⟨[5, 3]⟩ ⟨[2, 0]⟩ rfl (by decide)).1 (by decide)

/-- Modelled from the spec: ripple-carry limb addition of §4.2,
least-significant limb first; each step stores the 64-bit remainder and
propagates the carry; the final carry out is returned alongside. -/
def addCarry : List Nat → List Nat → Nat → List Nat × Nat
  | a :: as, b :: bs, c =>
    let s := a + b + c
    let p := addCarry as bs (s / 2 ^ 64)
    (s % 2 ^ 64 :: p.1, p.2)
  | _, _, c => ([], c)

/-- `addCarry` preserves the limb count. -/
theorem addCarry_length : ∀ (as bs : List Nat) (c : Nat), as.length = bs.length →
    (addCarry as bs c).1.length = as.length
  | [], [], _, _ => rfl
  | [], _ :: _, _, h => by simp at h
  | _ :: _, [], _, h => by simp at h
  | a :: as, b :: bs, c, h => by
    have h' : as.length = bs.length := by simpa using h
    show ((a + b + c) % 2 ^ 64 :: (addCarry as bs ((a + b + c) / 2 ^ 64)).1).length
      = (a :: as).length
    rw [List.length_cons, List.length_cons, addCarry_length as bs _ h']

/-- Every limb produced by `addCarry` fits in 64 bits. -/
theorem addCarry_limbs_lt : ∀ (as bs : List Nat) (c x : Nat),
    x ∈ (addCarry as bs c).1 → x < 2 ^ 64
  | [], [], c, x, hx => absurd hx (List.not_mem_nil x)
  | [], _ :: _, c, x, hx => absurd hx (List.not_mem_nil x)
  | _ :: _, [], c, x, hx => absurd hx (List.not_mem_nil x)
  | a :: as, b :: bs, c, x, hx => by
    have hred : (addCarry (a :: as) (b :: bs) c).1
        = (a + b + c) % 2 ^ 64 :: (addCarry as bs ((a + b + c) / 2 ^ 64)).1 := rfl
    rw [hred] at hx
    rcases List.mem_cons.mp hx with h | h
    · subst h
      exact Nat.mod_lt _ (by norm_num)
    · exact addCarry_limbs_lt as bs _ x h

/-- Value correctness of the carry chain: result plus weighted carry
out equals the sum of the inputs and the carry in. -/
theorem addCarry_val : ∀ (as bs : List Nat) (c : Nat), as.length = bs.length →
    limbsVal (addCarry as bs c).1 + 2 ^ (64 * as.length) * (addCarry as bs c).2
      = limbsVal as + limbsVal bs + c
  | [], [], c, _ => by simp [addCarry, limbsVal]
  | [], _ :: _, _, h => by simp at h
  | _ :: _, [], _, h => by simp at h
  | a :: as, b :: bs, c, h => by
    have h' : as.length = bs.length := by simpa using h
    have ih := addCarry_val as bs ((a + b + c) / 2 ^ 64) h'
    have hdm : 2 ^ 64 * ((a + b + c) / 2 ^ 64) + (a + b + c) % 2 ^ 64 = a + b + c :=
      Nat.div_add_mod _ _
    have hpow : (2 : Nat) ^ (64 * (a :: as).length) = 2 ^ 64 * 2 ^ (64 * as.length) := by
      rw [List.length_cons, ← pow_add]
      congr 1
      ring
    show (a + b + c) % 2 ^ 64 + 2 ^ 64 * limbsVal (addCarry as bs ((a + b + c) / 2 ^ 64)).1
        + 2 ^ (64 * (a :: as).length) * (addCarry as bs ((a + b + c) / 2 ^ 64)).2
      = a + 2 ^ 64 * limbsVal as + (b + 2 ^ 64 * limbsVal bs) + c
    rw [hpow, Nat.mul_assoc]
    omega

/-- A nonempty list is its front part plus its last element. -/
theorem exists_concat (ls : List Nat) (n : Nat) (h : ls.length = n + 1) :
    ∃ ys t, ls = ys ++ [t] ∧ ys.length = n := by
  have hne : ls ≠ [] := by
    intro h0
    subst h0
    simp at h
  refine ⟨ls.dropLast, ls.getLast hne, (List.dropLast_concat_getLast hne).symm, ?_⟩
  rw [List.length_dropLast, h]
  omega

/-- Canonical limb lists denote values below `2 ^ BITS`. -/
theorem canonical_lt (BITS : Nat) (ls : List Nat) (h : canonicalLimbs BITS ls) :
    limbsVal ls < 2 ^ BITS := by
  obtain ⟨hlen, hb, htop⟩ := h
  have hnl : nlimbs BITS = (BITS + 63) / 64 := rfl
  by_cases h0 : 0 < BITS
  · by_cases hr : BITS % 64 = 0
    · have h64 : 64 * nlimbs BITS = BITS := by omega
      have := limbsVal_lt ls hb
      rw [hlen, h64] at this
      exact this
    · obtain ⟨ys, t, hsplit, hylen⟩ := exists_concat ls (nlimbs BITS - 1) (by omega)
      have htop' : t ≤ mask BITS := by
        have h1 := htop h0
        rw [hsplit, getD_append_len ys t _ hylen.symm] at h1
        exact h1
      have hmask : mask BITS = 2 ^ (BITS % 64) - 1 := by
        unfold mask
        rw [if_neg (by omega), if_neg hr]
      have hys : limbsVal ys < 2 ^ (64 * (nlimbs BITS - 1)) := by
        have h2 := limbsVal_lt ys fun x hx => hb x (by rw [hsplit]; exact List.mem_append_left _ hx)
        rw [hylen] at h2
        exact h2
      rw [hsplit, limbsVal_append_singleton, hylen]
      have hAB : (2 : Nat) ^ (64 * (nlimbs BITS - 1)) * 2 ^ (BITS % 64) = 2 ^ BITS := by
        rw [← pow_add]
        congr 1
        omega
      have hB1 : 1 ≤ (2 : Nat) ^ (BITS % 64) := Nat.one_le_two_pow
      have ht' : t ≤ 2 ^ (BITS % 64) - 1 := by omega
      have hmul : 2 ^ (64 * (nlimbs BITS - 1)) * t
          ≤ 2 ^ (64 * (nlimbs BITS - 1)) * (2 ^ (BITS % 64) - 1) :=
        Nat.mul_le_mul_left _ ht'
      have h2 : 2 ^ (64 * (nlimbs BITS - 1)) * (2 ^ (BITS % 64) - 1) + 2 ^ (64 * (nlimbs BITS - 1))
          = 2 ^ (64 * (nlimbs BITS - 1)) * 2 ^ (BITS % 64) := mul_pred_add _ _ hB1
      omega
  · have hB : BITS = 0 := by omega
    subst hB
    have hl0 : ls.length = 0 := hlen.trans rfl
    have hnil : ls = [] := List.length_eq_zero.mp hl0
    subst hnil
    simp [limbsVal]

/-- Modelled from the spec: masking the top limb back into range after
the carry chain (§4.2). -/
def maskTop (r : Nat) (xs : List Nat) : List Nat :=
  xs.dropLast ++ [xs.getLastD 0 % 2 ^ r]

/-- Modelled from the spec: the addition kernel (`add.rs`) is not among
the sources.  Per §4.2, overflow-detecting addition propagates a single
carry limb-by-limb from least to most significant; when `BITS` is not a
multiple of 64 the bits carried past the valid region fold into the
overflow flag and the top limb is masked. -/
def overflowing_add (BITS : Nat) (a b : List Nat) : List Nat × Bool :=
  if BITS % 64 = 0 then
    ((addCarry a b 0).1, decide ((addCarry a b 0).2 ≠ 0))
  else
    (maskTop (BITS % 64) (addCarry a b 0).1,
      decide ((addCarry a b 0).2 ≠ 0)
        || decide (2 ^ (BITS % 64) ≤ (addCarry a b 0).1.getLastD 0))

/-- Modelled from the spec: wrapping addition is the wrapped component
of the overflow-detecting addition. -/
def wrapping_add (BITS : Nat) (a b : List Nat) : List Nat :=
  (overflowing_add BITS a b).1

/-- C6: on canonical inputs, `wrapping_add` computes the ring sum
`(a + b) % 2 ^ BITS`, `overflowing_add` returns the same wrapped limbs,
and its flag is set exactly when the unbounded sum reaches `2 ^ BITS`. -/
theorem add_spec (BITS : Nat) (a b : List Nat)
    (ha : canonicalLimbs BITS a) (hb : canonicalLimbs BITS b) :
    limbsVal (wrapping_add BITS a b) = (limbsVal a + limbsVal b) % 2 ^ BITS
    ∧ (overflowing_add BITS a b).1 = wrapping_add BITS a b
    ∧ ((overflowing_add BITS a b).2 = true ↔ 2 ^ BITS ≤ limbsVal a + limbsVal b) := by
  obtain ⟨haL, haB, haT⟩ := ha
  obtain ⟨hbL, hbB, hbT⟩ := hb
  have hnl : nlimbs BITS = (BITS + 63) / 64 := rfl
  have hlen : a.length = b.length := by rw [haL, hbL]
  have hvA := addCarry_val a b 0 hlen
  rw [haL] at hvA
  have hP1len : (addCarry a b 0).1.length = nlimbs BITS := by
    rw [addCarry_length a b 0 hlen, haL]
  have hPlt : ∀ x ∈ (addCarry a b 0).1, x < 2 ^ 64 := fun x hx => addCarry_limbs_lt a b 0 x hx
  unfold wrapping_add overflowing_add
  by_cases hr : BITS % 64 = 0
  · rw [if_pos hr]
    have h64 : 64 * nlimbs BITS = BITS := by omega
    rw [h64] at hvA
    have hvlt : limbsVal (addCarry a b 0).1 < 2 ^ BITS := by
      have h1 := limbsVal_lt _ hPlt
      rw [hP1len, h64] at h1
      exact h1
    refine ⟨?_, rfl, ?_⟩
    · have hs : limbsVal a + limbsVal b
          = limbsVal (addCarry a b 0).1 + 2 ^ BITS * (addCarry a b 0).2 := by omega
      rw [hs, Nat.add_mul_mod_self_left, Nat.mod_eq_of_lt hvlt]
    · simp only [decide_eq_true_eq, ne_eq]
      constructor
      · intro hc
        have h1 : 1 ≤ (addCarry a b 0).2 := Nat.pos_of_ne_zero hc
        have h2 := Nat.mul_le_mul_left (2 ^ BITS) h1
        rw [Nat.mul_one] at h2
        omega
      · intro hge hc0
        rw [hc0, Nat.mul_zero] at hvA
        omega
  · rw [if_neg hr]
    have h0 : 0 < BITS := by omega
    have hva : limbsVal a < 2 ^ BITS := canonical_lt BITS a ⟨haL, haB, haT⟩
    have hvb : limbsVal b < 2 ^ BITS := canonical_lt BITS b ⟨hbL, hbB, hbT⟩
    have hlt2 : limbsVal a + limbsVal b < 2 ^ (64 * nlimbs BITS) := by
      have hBL : BITS + 1 ≤ 64 * nlimbs BITS := by omega
      have hle : (2 : Nat) ^ (BITS + 1) ≤ 2 ^ (64 * nlimbs BITS) :=
        Nat.pow_le_pow_right (by norm_num) hBL
      have hp : (2 : Nat) ^ (BITS + 1) = 2 ^ BITS * 2 := pow_succ 2 BITS
      omega
    have hcout : (addCarry a b 0).2 = 0 := by
      by_contra hc
      have h1 : 1 ≤ (addCarry a b 0).2 := Nat.pos_of_ne_zero hc
      have h2 := Nat.mul_le_mul_left (2 ^ (64 * nlimbs BITS)) h1
      rw [Nat.mul_one] at h2
      omega
    have hX : limbsVal (addCarry a b 0).1 = limbsVal a + limbsVal b := by
      rw [hcout, Nat.mul_zero] at hvA
      omega
    obtain ⟨ys, t, hsplit, hylen⟩ :=
      exists_concat (addCarry a b 0).1 (nlimbs BITS - 1) (by omega)
    have hyB : ∀ x ∈ ys, x < 2 ^ 64 := fun x hx =>
      hPlt x (by rw [hsplit]; exact List.mem_append_left _ hx)
    have hys : limbsVal ys < 2 ^ (64 * (nlimbs BITS - 1)) := by
      have h2 := limbsVal_lt ys hyB
      rw [hylen] at h2
      exact h2
    have hgl : (addCarry a b 0).1.getLastD 0 = t := by
      rw [hsplit]
      exact List.getLastD_concat _ _ _
    have hmt : maskTop (BITS % 64) (addCarry a b 0).1 = ys ++ [t % 2 ^ (BITS % 64)] := by
      unfold maskTop
      rw [hsplit, List.dropLast_concat, List.getLastD_concat]
    have hvX : limbsVal (addCarry a b 0).1
        = limbsVal ys + 2 ^ (64 * (nlimbs BITS - 1)) * t := by
      rw [hsplit, limbsVal_append_singleton, hylen]
    have hAB : (2 : Nat) ^ (64 * (nlimbs BITS - 1)) * 2 ^ (BITS % 64) = 2 ^ BITS := by
      rw [← pow_add]
      congr 1
      omega
    have hdm : 2 ^ (BITS % 64) * (t / 2 ^ (BITS % 64)) + t % 2 ^ (BITS % 64) = t :=
      Nat.div_add_mod _ _
    have e1 : 2 ^ (64 * (nlimbs BITS - 1)) * t
        = 2 ^ (64 * (nlimbs BITS - 1)) * (t % 2 ^ (BITS % 64))
          + 2 ^ (64 * (nlimbs BITS - 1)) * 2 ^ (BITS % 64) * (t / 2 ^ (BITS % 64)) := by
      rw [Nat.mul_assoc, ← Nat.mul_add]
      congr 1
      omega
    have hfinal : limbsVal a + limbsVal b
        = (limbsVal ys + 2 ^ (64 * (nlimbs BITS - 1)) * (t % 2 ^ (BITS % 64)))
          + 2 ^ BITS * (t / 2 ^ (BITS % 64)) := by
      rw [← hX, hvX, e1, hAB]
      ring
    have hu : t % 2 ^ (BITS % 64) ≤ 2 ^ (BITS % 64) - 1 := by
      have h2 := Nat.mod_lt t (show 0 < 2 ^ (BITS % 64) from Nat.pos_pow_of_pos _ (by norm_num))
      omega
    have hbound : limbsVal ys + 2 ^ (64 * (nlimbs BITS - 1)) * (t % 2 ^ (BITS % 64))
        < 2 ^ BITS := by
      have hmul : 2 ^ (64 * (nlimbs BITS - 1)) * (t % 2 ^ (BITS % 64))
          ≤ 2 ^ (64 * (nlimbs BITS - 1)) * (2 ^ (BITS % 64) - 1) :=
        Nat.mul_le_mul_left _ hu
      have h2 : 2 ^ (64 * (nlimbs BITS - 1)) * (2 ^ (BITS % 64) - 1)
            + 2 ^ (64 * (nlimbs BITS - 1))
          = 2 ^ (64 * (nlimbs BITS - 1)) * 2 ^ (BITS % 64) :=
        mul_pred_add _ _ Nat.one_le_two_pow
      omega
    refine ⟨?_, rfl, ?_⟩
    · rw [hmt, limbsVal_append_singleton, hylen]
      rw [hfinal, Nat.add_mul_mod_self_left, Nat.mod_eq_of_lt hbound]
    · rw [hcout, hgl]
      simp only [ne_eq, not_true_eq_false, decide_not, Bool.or_eq_true, decide_eq_true_eq]
      constructor
      · intro hflag
        have h2rt : 2 ^ (BITS % 64) ≤ t := by
          rcases hflag with hl | hr2
          · simp at hl
          · exact hr2
        have hq1 : 1 ≤ t / 2 ^ (BITS % 64) := by
          by_contra hq0
          have hq : t / 2 ^ (BITS % 64) = 0 := Nat.lt_one_iff.mp (Nat.lt_of_not_le hq0)
          rw [hq, Nat.mul_zero] at hdm
          have hP1 : 1 ≤ (2 : Nat) ^ (BITS % 64) := Nat.one_le_two_pow
          omega
        have hmul2 := Nat.mul_le_mul_left (2 ^ BITS) hq1
        rw [Nat.mul_one] at hmul2
        omega
      · intro hge
        right
        by_contra hlt'
        push_neg at hlt'
        have hq : t / 2 ^ (BITS % 64) = 0 := Nat.div_eq_of_lt hlt'
        rw [hq, Nat.mul_zero, Nat.add_zero] at hfinal
        omega

/-- Witness for `add_spec`: at width 8, `200 + 100` wraps to 44 and the
canonicity hypotheses are discharged at these inputs. -/
theorem add_spec_witness :
    canonicalLimbs 8 [200]
      ∧ limbsVal (wrapping_add 8 [200] [100]) = (limbsVal [200] + limbsVal [100]) % 2 ^ 8 :=
  ⟨⟨rfl, by decide, by decide⟩,
    (add_spec 8 [200] [100] ⟨rfl, by decide, by decide⟩ ⟨rfl, by decide, by decide⟩).1⟩

end Ruint
